import Mathlib

/-!
Verification development for the Fourier-transform program `src/cfourier.cc`.

The C++ program computes discrete Fourier transforms of complex signals in
three ways: a direct `O(N^2)` reference (`dft` / `idft`), an iterative radix-2
transform (`fft` / `ifft`) built from a bit-reversal permutation followed by
butterfly stages, and an OpenCL-dispatched variant (class `Fourier`).  Here the
host-side algorithms are embedded shallowly:

* `Complex` (a pair of C `float`s) is modelled as the exact complex numbers `ℂ`;
  all floating-point arithmetic is idealised as exact arithmetic on `ℂ`/`ℝ`.
* `Signal` (`std::vector<Complex>`) is modelled as `List ℂ`; `size_t` indices
  and sizes are modelled as `ℕ`.
* Functions whose C counterpart can fail to produce a value (an `assert` on
  mismatched lengths, or a loop that never terminates) return an `Option`,
  with `none` for the failing computation.
* In-place loops are modelled by folds over the mutated vector.

The `Fourier` class's OpenCL orchestration is modelled separately as the trace
of backend operations (buffer loads/stores and kernel dispatches) it issues.
-/

/-! ### Bit reversal

`reverse_bits(n, max)` in the source runs `for (i = 1; i != max; i <<= 1)`.
The loop variable `i` only ever holds the values `2^k` (and, after 64-bit
wraparound, `0`); consequently, when `max` is not a power of two the test
`i != max` never fails and the loop never terminates.  The model makes the
iteration explicit with a fuel argument: the `mx < i` branch returns `none`
because from that point the C loop can never exit (under wraparound `i`
eventually becomes `0` and stays there, never equal to `mx ≠ 0`), and the
fuel-exhaustion branch also returns `none`.  `reverse_bits` supplies fuel
`mx + 2`, which is proved sufficient whenever the loop terminates at all, so
`none` faithfully marks exactly the non-terminating calls of the source. -/

/-- Loop body of `reverse_bits`: state is `(n, result, i)`, bound `mx`. -/
def reverse_bits_go : (fuel : ℕ) → (n result i mx : ℕ) → Option ℕ
  | 0, _, result, i, mx => if i = mx then some result else none
  | f + 1, n, result, i, mx =>
    if i = mx then some result
    else if mx < i then none
    else reverse_bits_go f (n / 2) (2 * result + n % 2) (2 * i) mx

/-- Model of `reverse_bits(size_t n, size_t max)` from the source. -/
def reverse_bits (n mx : ℕ) : Option ℕ :=
  reverse_bits_go (mx + 2) n 0 1 mx

/-- Mathematical reversal of the low `m` bits of `n`. -/
def bitRev : ℕ → ℕ → ℕ
  | 0, _ => 0
  | m + 1, n => n % 2 * 2 ^ m + bitRev m (n / 2)

theorem bitRev_lt (m : ℕ) : ∀ n, bitRev m n < 2 ^ m := by
  induction m with
  | zero => intro n; simp [bitRev]
  | succ m ih =>
    intro n
    have h1 : n % 2 ≤ 1 := Nat.le_of_lt_succ (Nat.mod_lt n (by norm_num))
    have h2 := ih (n / 2)
    have h3 : (2 : ℕ) ^ (m + 1) = 2 ^ m + 2 ^ m := by rw [pow_succ]; ring
    simp only [bitRev]
    nlinarith [pow_pos (by norm_num : (0:ℕ) < 2) m]

theorem reverse_bits_go_pow (k : ℕ) :
    ∀ fuel j n r, k ≤ fuel →
      reverse_bits_go fuel n r (2 ^ j) (2 ^ (j + k)) = some (r * 2 ^ k + bitRev k n) := by
  induction k with
  | zero =>
    intro fuel j n r _
    cases fuel <;> simp [reverse_bits_go, bitRev]
  | succ k ih =>
    intro fuel j n r hf
    match fuel, hf with
    | f + 1, hf =>
      rw [reverse_bits_go]
      have hne : (2 : ℕ) ^ j ≠ 2 ^ (j + (k + 1)) := by
        have : j < j + (k + 1) := by omega
        exact Nat.ne_of_lt (Nat.pow_lt_pow_right (by norm_num) this)
      have hlt : ¬ 2 ^ (j + (k + 1)) < 2 ^ j := by
        have : j ≤ j + (k + 1) := by omega
        exact Nat.not_lt.mpr (Nat.pow_le_pow_right (by norm_num) this)
      simp only [hne, if_false, hlt]
      have h2i : 2 * 2 ^ j = 2 ^ (j + 1) := by rw [pow_succ]; ring
      have hidx : j + (k + 1) = (j + 1) + k := by omega
      rw [h2i, hidx, ih f (j + 1) (n / 2) (2 * r + n % 2) (by omega)]
      congr 1
      have hp : (2 : ℕ) ^ (k + 1) = 2 ^ k * 2 := pow_succ 2 k
      simp only [bitRev]
      ring

theorem reverse_bits_pow (m n : ℕ) : reverse_bits n (2 ^ m) = some (bitRev m n) := by
  have hfuel : m ≤ 2 ^ m + 2 := le_trans (le_of_lt (Nat.lt_two_pow m)) (by omega)
  have h := reverse_bits_go_pow m (2 ^ m + 2) 0 n 0 hfuel
  simpa [reverse_bits] using h

theorem reverse_bits_go_not_pow {mx : ℕ} (h : ∀ k, mx ≠ 2 ^ k) :
    ∀ fuel j n r, reverse_bits_go fuel n r (2 ^ j) mx = none := by
  intro fuel
  induction fuel with
  | zero =>
    intro j n r
    have hne : (2 : ℕ) ^ j ≠ mx := Ne.symm (h j)
    simp [reverse_bits_go, hne]
  | succ f ih =>
    intro j n r
    rw [reverse_bits_go]
    have hne : (2 : ℕ) ^ j ≠ mx := Ne.symm (h j)
    simp only [hne, if_false]
    by_cases hlt : mx < 2 ^ j
    · simp [hlt]
    · simp only [hlt, if_false]
      have h2i : 2 * 2 ^ j = 2 ^ (j + 1) := by rw [pow_succ]; ring
      rw [h2i]
      exact ih (j + 1) (n / 2) (2 * r + n % 2)

theorem reverse_bits_not_pow {mx : ℕ} (h : ∀ k, mx ≠ 2 ^ k) (n : ℕ) :
    reverse_bits n mx = none := by
  have h1 : (1 : ℕ) = 2 ^ 0 := rfl
  rw [reverse_bits, h1]
  exact reverse_bits_go_not_pow h (mx + 2) 0 n 0

/-- Model of the test predicate `prop_reverse_bits` from the source. -/
def prop_reverse_bits (n mx correct : ℕ) : Bool :=
  reverse_bits n mx == some correct

/-! ### List index helpers

The C code reads and writes vectors through raw indices; the model uses
`List.getD` with default `0` (the default is never reached at in-range
indices, which is all the code uses). -/

theorem getD_set_self {α : Type} {l : List α} {i : ℕ} {a d : α} (h : i < l.length) :
    (l.set i a).getD i d = a := by
  rw [List.getD_eq_getElem?_getD, List.getElem?_set_self h]
  rfl

theorem getD_set_ne {α : Type} {l : List α} {i j : ℕ} (h : i ≠ j) (a d : α) :
    (l.set i a).getD j d = l.getD j d := by
  rw [List.getD_eq_getElem?_getD, List.getElem?_set_ne h, ← List.getD_eq_getElem?_getD]

theorem getD_append_left {α : Type} {a b : List α} {j : ℕ} (d : α) (h : j < a.length) :
    (a ++ b).getD j d = a.getD j d := by
  rw [List.getD_eq_getElem?_getD, List.getElem?_append_left h, ← List.getD_eq_getElem?_getD]

theorem getD_append_right {α : Type} {a b : List α} {j : ℕ} (d : α) (h : a.length ≤ j) :
    (a ++ b).getD j d = b.getD (j - a.length) d := by
  rw [List.getD_eq_getElem?_getD, List.getElem?_append_right h, ← List.getD_eq_getElem?_getD]

theorem getD_map_range {α : Type} {f : ℕ → α} {n j : ℕ} (d : α) (h : j < n) :
    ((List.range n).map f).getD j d = f j := by
  rw [List.getD_eq_getElem?_getD, List.getElem?_map, List.getElem?_range h]
  rfl

theorem getD_take {α : Type} {l : List α} {S j : ℕ} (d : α) (h : j < S) :
    (l.take S).getD j d = l.getD j d := by
  rw [List.getD_eq_getElem?_getD, List.getElem?_take, if_pos h, ← List.getD_eq_getElem?_getD]

theorem getD_drop {α : Type} {l : List α} {k j : ℕ} (d : α) :
    (l.drop k).getD j d = l.getD (k + j) d := by
  rw [List.getD_eq_getElem?_getD, List.getElem?_drop, ← List.getD_eq_getElem?_getD]

theorem getD_of_length_le {α : Type} {l : List α} {j : ℕ} (d : α) (h : l.length ≤ j) :
    l.getD j d = d := by
  rw [List.getD_eq_getElem?_getD, List.getElem?_eq_none h]
  rfl

/-! ### The transforms

Everything below is a direct translation of the corresponding function in
`src/cfourier.cc`; the C `Float` (`float`) arithmetic is idealised as exact
real/complex arithmetic. -/

noncomputable section

/-- Tolerance `eps = 0.01` from the source. -/
def eps : ℝ := 0.01

/-- Forward twiddle `W(k, N) = exp(-i·2·π·k/N)` from the source. -/
def W (k N : ℕ) : ℂ := Complex.exp (-Complex.I * 2 * Real.pi * k / N)

/-- Inverse twiddle `Q(n, N) = exp(i·2·π·n/N)` from the source. -/
def Q (n N : ℕ) : ℂ := Complex.exp (Complex.I * 2 * Real.pi * n / N)

/-- Reference transform `dft`: `result[k] = Σ_n signal[n]·exp(-i·2π·k·n/N)`. -/
def dft (signal : List ℂ) : List ℂ :=
  (List.range signal.length).map fun (k : ℕ) =>
    ∑ n ∈ Finset.range signal.length,
      signal.getD n 0 * Complex.exp (-Complex.I * 2 * Real.pi * k * n / signal.length)

/-- Reference inverse `idft`: `result[n] = (Σ_k spectrum[k]·exp(i·2π·k·n/N))/N`. -/
def idft (spectrum : List ℂ) : List ℂ :=
  (List.range spectrum.length).map fun (n : ℕ) =>
    (∑ k ∈ Finset.range spectrum.length,
      spectrum.getD k 0 * Complex.exp (Complex.I * 2 * Real.pi * k * n / spectrum.length))
      / spectrum.length

/-- The even-indexed samples, as collected by `prop_fft_is_decomposed_dft`. -/
def evens (s : List ℂ) : List ℂ :=
  (List.range (s.length / 2)).map fun i => s.getD (2 * i) 0

/-- The odd-indexed samples, as collected by `prop_fft_is_decomposed_dft`. -/
def odds (s : List ℂ) : List ℂ :=
  (List.range (s.length / 2)).map fun i => s.getD (2 * i + 1) 0

/-- One iteration of the butterfly loop shared by `fft_step_spectrum` and
`ifft_step`: read `even = y[i]` and `odd = y[i + S/2]`, then overwrite both
slots with `comb` applied at the two sample indices. -/
def butterfly_update (comb : ℕ → ℂ → ℂ → ℂ) (S : ℕ) (y : List ℂ) (i : ℕ) : List ℂ :=
  let even := y.getD i 0
  let odd := y.getD (i + S / 2) 0
  (y.set i (comb i even odd)).set (i + S / 2) (comb (i + S / 2) even odd)

/-- The in-place loop `for (i = 0; i != S/2; ++i)` over one block. -/
def butterfly_loop (comb : ℕ → ℂ → ℂ → ℂ) (S : ℕ) (y : List ℂ) : List ℂ :=
  (List.range (S / 2)).foldl (butterfly_update comb S) y

/-- `fft_step_spectrum(spectrum, S)`: both outputs are `even + W(sample, S)·odd`
with the twiddle evaluated at the respective sample index. -/
def fft_step_spectrum (S : ℕ) (y : List ℂ) : List ℂ :=
  butterfly_loop (fun j even odd => even + W j S * odd) S y

/-- `ifft_step(spectrum, S)`: both outputs are `0.5·(even + Q(sample, S)·odd)`. -/
def ifft_step (S : ℕ) (y : List ℂ) : List ℂ :=
  butterfly_loop (fun j even odd => (1 / 2 : ℂ) * (even + Q j S * odd)) S y

/-- A loop `for (t = 0; t != T; ++t) f(&y[t*S], S)` over `T` contiguous
blocks of `S` samples, as used by `fft_step` and the stage loop of `ifft`. -/
def blockwise (f : List ℂ → List ℂ) (S : ℕ) : ℕ → List ℂ → List ℂ
  | 0, y => y
  | T + 1, y => f (y.take S) ++ blockwise f S T (y.drop S)

/-- `fft_step(spectrum, transform_count, sample_count)` from the source. -/
def fft_step (T S : ℕ) (y : List ℂ) : List ℂ :=
  blockwise (fft_step_spectrum S) S T y

/-- The list `fft_init` produces on a power-of-two input: index `i` receives
the sample at the bit-reversed index. -/
def bitrev_perm (m : ℕ) (s : List ℂ) : List ℂ :=
  (List.range (2 ^ m)).map fun i => s.getD (bitRev m i) 0

/-- Sequencing of an index-by-index vector fill whose element computation can
fail to terminate: the first `none` (a diverging `reverse_bits` call) makes
the whole fill `none`. -/
def seqMapOpt (f : ℕ → Option ℂ) : List ℕ → Option (List ℂ)
  | [] => some []
  | i :: is =>
    match f i with
    | none => none
    | some c => (seqMapOpt f is).map fun l => c :: l

/-- `fft_init(dst, src, N)`: `dst[i] = src[reverse_bits(i, N)]`.  The same
loop opens `ifft`. -/
def fft_init (src : List ℂ) : Option (List ℂ) :=
  seqMapOpt (fun i => (reverse_bits i src.length).map fun j => src.getD j 0)
    (List.range src.length)

/-- The stage loop of `fft`: `while (transform_count >= 1)` with
`sample_count = N / transform_count`, halving `transform_count` each pass. -/
def fft_loop (N T : ℕ) (y : List ℂ) : List ℂ :=
  if h : 1 ≤ T then fft_loop N (T / 2) (fft_step T (N / T) y) else y
termination_by T
decreasing_by omega

/-- `fft(signal)` from the source. -/
def fft (signal : List ℂ) : Option (List ℂ) :=
  (fft_init signal).map fun y => fft_loop signal.length (signal.length / 2) y

/-- The stage loop of `ifft`: `while (sample_count <= N)`, with the source's
`assert(transform_count * sample_count == N)` modelled as `none` on failure.
The conjunct `1 ≤ S` only serves the termination measure; the source enters
the loop with `S = 2` and doubles it, so `S ≥ 1` always holds there. -/
def ifft_loop (N T S : ℕ) (y : List ℂ) : Option (List ℂ) :=
  if h : 1 ≤ S ∧ S ≤ N then
    if T * S = N then ifft_loop N (T / 2) (2 * S) (blockwise (ifft_step S) S T y)
    else none
  else some y
termination_by N + 1 - S
decreasing_by omega

/-- `ifft(spectrum)` from the source: the bit-reversal fill (identical to
`fft_init`), then ascending butterfly stages `S = 2, 4, …, N`. -/
def ifft (spectrum : List ℂ) : Option (List ℂ) :=
  (fft_init spectrum).bind fun y =>
    ifft_loop spectrum.length (spectrum.length / 2) 2 y

/-- `operator-(Signal, Signal)`: element-wise difference, `assert` on a length
mismatch. -/
def subSignal (a b : List ℂ) : Option (List ℂ) :=
  if a.length = b.length then some (List.zipWith (fun x y => x - y) a b) else none

/-- `dot(Complex, Complex) = a · conj(b)` from the source. -/
def dotc (a b : ℂ) : ℂ := a * (starRingEnd ℂ) b

/-- `dot(Signal, Signal)`: sum of element-wise `dotc`, `assert` on a length
mismatch. -/
def dotSignal (a b : List ℂ) : Option ℂ :=
  if a.length = b.length then
    some (∑ i ∈ Finset.range a.length, dotc (a.getD i 0) (b.getD i 0))
  else none

/-- `error(a, b) = sqrt(real(dot(e, e)) / e.size())` with `e = a - b`: the RMS
residual used by every differential test. -/
def error (a b : List ℂ) : Option ℝ :=
  (subSignal a b).bind fun e =>
    (dotSignal e e).map fun d => Real.sqrt (d.re / e.length)

/-- The inverse phase-sum list: `idft` without its explicit `1/N` factor. -/
def phase_sums (s : List ℂ) : List ℂ :=
  (List.range s.length).map fun (n : ℕ) =>
    ∑ k ∈ Finset.range s.length,
      s.getD k 0 * Complex.exp (Complex.I * 2 * Real.pi * k * n / s.length)

/-- Scalar multiple of every entry of a signal. -/
def scale (c : ℂ) (y : List ℂ) : List ℂ := y.map fun z => c * z

/-- `prop_fft_is_decomposed_dft(test_signal)` from the source: DFT the even and
odd sub-sequences, concatenate, run one `fft_step_spectrum` over the whole
concatenation, and compare with `dft` of the signal. -/
def prop_fft_is_decomposed_dft (s : List ℂ) : Option ℝ :=
  let intermediate := dft (evens s) ++ dft (odds s)
  error (dft s) (fft_step_spectrum intermediate.length intermediate)

end

/-! ### Butterfly loop characterisation

The loop body writes only the two slots `i` and `i + S/2`, and distinct
iterations touch disjoint slot pairs, so the fold admits a pointwise
description. -/

theorem butterfly_fold_length (comb : ℕ → ℂ → ℂ → ℂ) (S : ℕ) :
    ∀ (l : List ℕ) (y : List ℂ), (l.foldl (butterfly_update comb S) y).length = y.length := by
  intro l
  induction l with
  | nil => intro y; rfl
  | cons i is ih =>
    intro y
    simp only [List.foldl_cons]
    rw [ih]
    simp [butterfly_update]

theorem butterfly_fold_getD (comb : ℕ → ℂ → ℂ → ℂ) (S : ℕ) (y : List ℂ) (hy : y.length = S) :
    ∀ t, t ≤ S / 2 → ∀ j, j < S →
      ((List.range t).foldl (butterfly_update comb S) y).getD j 0 =
        if j < t then comb j (y.getD j 0) (y.getD (j + S / 2) 0)
        else if S / 2 ≤ j ∧ j < S / 2 + t then comb j (y.getD (j - S / 2) 0) (y.getD j 0)
        else y.getD j 0 := by
  intro t
  induction t with
  | zero =>
    intro _ j hj
    simp only [List.range_zero, List.foldl_nil]
    split_ifs with h1 h2
    · exact absurd h1 (by omega)
    · exact absurd h2 (by omega)
    · rfl
  | succ t ih =>
    intro ht j hj
    have hhalf : S / 2 + S / 2 ≤ S := by omega
    have htS : t < S / 2 := by omega
    rw [List.range_succ, List.foldl_append, List.foldl_cons, List.foldl_nil]
    set z := (List.range t).foldl (butterfly_update comb S) y with hz
    have hzlen : z.length = S := by rw [hz, butterfly_fold_length, hy]
    have hzt : z.getD t 0 = y.getD t 0 := by
      rw [hz, ih (by omega) t (by omega)]
      split_ifs with h1 h2
      · exact absurd h1 (by omega)
      · exact absurd h2.1 (by omega)
      · rfl
    have hzt2 : z.getD (t + S / 2) 0 = y.getD (t + S / 2) 0 := by
      rw [hz, ih (by omega) (t + S / 2) (by omega)]
      split_ifs with h1 h2
      · exact absurd h1 (by omega)
      · exact absurd h2.2 (by omega)
      · rfl
    simp only [butterfly_update, hzt, hzt2]
    by_cases hj2 : j = t + S / 2
    · rw [hj2, getD_set_self (by rw [List.length_set, hzlen]; omega)]
      rw [if_neg (by omega), if_pos (by omega)]
      have heq : t + S / 2 - S / 2 = t := by omega
      rw [heq]
    · rw [getD_set_ne (Ne.symm hj2)]
      by_cases hj1 : j = t
      · rw [hj1, getD_set_self (by rw [hzlen]; omega)]
        rw [if_pos (by omega)]
      · rw [getD_set_ne (Ne.symm hj1), hz, ih (by omega) j hj]
        split_ifs <;> first | rfl | (exfalso; omega)

theorem butterfly_loop_length (comb : ℕ → ℂ → ℂ → ℂ) (S : ℕ) (y : List ℂ) :
    (butterfly_loop comb S y).length = y.length :=
  butterfly_fold_length comb S (List.range (S / 2)) y

theorem butterfly_loop_getD_lo (comb : ℕ → ℂ → ℂ → ℂ) {S : ℕ} {y : List ℂ}
    (hy : y.length = S) {j : ℕ} (hj : j < S / 2) :
    (butterfly_loop comb S y).getD j 0 = comb j (y.getD j 0) (y.getD (j + S / 2) 0) := by
  rw [butterfly_loop, butterfly_fold_getD comb S y hy (S / 2) le_rfl j (by omega)]
  rw [if_pos hj]

theorem butterfly_loop_getD_hi (comb : ℕ → ℂ → ℂ → ℂ) {S : ℕ} {y : List ℂ}
    (hy : y.length = S) {j : ℕ} (h1 : S / 2 ≤ j) (h2 : j < S / 2 + S / 2) :
    (butterfly_loop comb S y).getD j 0 = comb j (y.getD (j - S / 2) 0) (y.getD j 0) := by
  rw [butterfly_loop, butterfly_fold_getD comb S y hy (S / 2) le_rfl j (by omega)]
  rw [if_neg (by omega), if_pos ⟨h1, h2⟩]

theorem fft_step_spectrum_length (S : ℕ) (y : List ℂ) :
    (fft_step_spectrum S y).length = y.length :=
  butterfly_loop_length _ S y

theorem ifft_step_length (S : ℕ) (y : List ℂ) :
    (ifft_step S y).length = y.length :=
  butterfly_loop_length _ S y

/-! ### Blockwise application -/

theorem blockwise_length {f : List ℂ → List ℂ} (hf : ∀ z, (f z).length = z.length)
    (S : ℕ) : ∀ (T : ℕ) (y : List ℂ), (blockwise f S T y).length = y.length := by
  intro T
  induction T with
  | zero => intro y; rfl
  | succ T ih =>
    intro y
    simp only [blockwise, List.length_append, hf, ih, List.length_take, List.length_drop]
    omega

theorem blockwise_append (f : List ℂ → List ℂ) (S : ℕ) :
    ∀ (T1 T2 : ℕ) (a b : List ℂ), a.length = T1 * S →
      blockwise f S (T1 + T2) (a ++ b) = blockwise f S T1 a ++ blockwise f S T2 b := by
  intro T1
  induction T1 with
  | zero =>
    intro T2 a b ha
    have : a = [] := List.eq_nil_of_length_eq_zero (by simpa using ha)
    subst this
    simp [blockwise]
  | succ T1 ih =>
    intro T2 a b ha
    have ha2 : a.length = T1 * S + S := by rw [ha]; ring
    have hS : S ≤ a.length := by omega
    have hshift : T1 + 1 + T2 = (T1 + T2) + 1 := by omega
    rw [hshift]
    simp only [blockwise]
    have htake : (a ++ b).take S = a.take S := by
      rw [List.take_append_eq_append_take, Nat.sub_eq_zero_of_le hS]
      simp
    have hdrop : (a ++ b).drop S = a.drop S ++ b := by
      rw [List.drop_append_eq_append_drop, Nat.sub_eq_zero_of_le hS]
      simp
    rw [htake, hdrop, ih T2 (a.drop S) b (by rw [List.length_drop]; omega)]
    rw [List.append_assoc]

theorem blockwise_one (f : List ℂ → List ℂ) (S : ℕ) (y : List ℂ) (hy : y.length = S) :
    blockwise f S 1 y = f y := by
  simp only [blockwise]
  rw [List.take_of_length_le (by omega), List.drop_of_length_le (by omega)]
  simp

/-! ### Unfolding equations for the stage loops -/

theorem fft_loop_zero (N : ℕ) (y : List ℂ) : fft_loop N 0 y = y := by
  rw [fft_loop]
  simp

theorem fft_loop_succ (N T : ℕ) (y : List ℂ) (h : 1 ≤ T) :
    fft_loop N T y = fft_loop N (T / 2) (fft_step T (N / T) y) := by
  rw [fft_loop]
  simp [h]

theorem ifft_loop_exit (N T S : ℕ) (y : List ℂ) (h : ¬ (1 ≤ S ∧ S ≤ N)) :
    ifft_loop N T S y = some y := by
  rw [ifft_loop]
  simp [h]

theorem ifft_loop_enter (N T S : ℕ) (y : List ℂ) (h : 1 ≤ S ∧ S ≤ N) (ha : T * S = N) :
    ifft_loop N T S y = ifft_loop N (T / 2) (2 * S) (blockwise (ifft_step S) S T y) := by
  rw [ifft_loop]
  simp [h, ha]

/-! ### Even/odd sample extraction -/

theorem evens_length (s : List ℂ) : (evens s).length = s.length / 2 := by
  simp [evens]

theorem odds_length (s : List ℂ) : (odds s).length = s.length / 2 := by
  simp [odds]

theorem evens_getD {s : List ℂ} {r : ℕ} (h : r < s.length / 2) :
    (evens s).getD r 0 = s.getD (2 * r) 0 := by
  simp only [evens]
  exact getD_map_range 0 h

theorem odds_getD {s : List ℂ} {r : ℕ} (h : r < s.length / 2) :
    (odds s).getD r 0 = s.getD (2 * r + 1) 0 := by
  simp only [odds]
  exact getD_map_range 0 h

/-! ### The radix-2 split of an exponential sum

`key_sum_split` is the arithmetic heart of every Cooley-Tukey style identity
in the program: splitting the defining sum of the (scaled or unscaled,
forward or inverse) transform over even and odd input indices.  It is stated
for a generic phase constant `c` with `exp(c·k) = 1` for every integer `k`,
which covers both `c = -2πi` (forward) and `c = 2πi` (inverse). -/

theorem sum_range_double (f : ℕ → ℂ) :
    ∀ h : ℕ, ∑ n ∈ Finset.range (2 * h), f n =
      ∑ r ∈ Finset.range h, f (2 * r) + ∑ r ∈ Finset.range h, f (2 * r + 1) := by
  intro h
  induction h with
  | zero => simp
  | succ h ih =>
    have h2 : 2 * (h + 1) = (2 * h) + 1 + 1 := by ring
    rw [h2, Finset.sum_range_succ, Finset.sum_range_succ, ih,
      Finset.sum_range_succ, Finset.sum_range_succ]
    ring

theorem key_sum_split (c : ℂ) (hc : ∀ k : ℕ, Complex.exp (c * k) = 1)
    (h : ℕ) (hpos : 0 < h) (s : List ℂ) (hs : s.length = 2 * h) (j : ℕ) :
    ∑ n ∈ Finset.range (2 * h), s.getD n 0 * Complex.exp (c * j * n / ((2 * h : ℕ) : ℂ))
      = (∑ r ∈ Finset.range h,
          (evens s).getD r 0 * Complex.exp (c * ((j % h : ℕ) : ℂ) * r / (h : ℂ)))
        + Complex.exp (c * j / ((2 * h : ℕ) : ℂ)) *
          ∑ r ∈ Finset.range h,
            (odds s).getD r 0 * Complex.exp (c * ((j % h : ℕ) : ℂ) * r / (h : ℂ)) := by
  have hh : (h : ℂ) ≠ 0 := Nat.cast_ne_zero.mpr (by omega)
  have hj : (j : ℂ) = (h : ℂ) * ((j / h : ℕ) : ℂ) + ((j % h : ℕ) : ℂ) := by
    exact_mod_cast (congrArg (Nat.cast : ℕ → ℂ) (Nat.div_add_mod j h)).symm
  rw [sum_range_double]
  congr 1
  · apply Finset.sum_congr rfl
    intro r hr
    rw [Finset.mem_range] at hr
    rw [evens_getD (by omega : r < s.length / 2)]
    congr 1
    have harg : c * (j : ℂ) * ((2 * r : ℕ) : ℂ) / ((2 * h : ℕ) : ℂ)
        = c * ((j % h : ℕ) : ℂ) * (r : ℂ) / (h : ℂ) + c * ((r * (j / h) : ℕ) : ℂ) := by
      push_cast
      rw [hj]
      field_simp
      ring
    rw [harg, Complex.exp_add, hc (r * (j / h)), mul_one]
  · rw [Finset.mul_sum]
    apply Finset.sum_congr rfl
    intro r hr
    rw [Finset.mem_range] at hr
    rw [odds_getD (by omega : r < s.length / 2)]
    have harg : c * (j : ℂ) * ((2 * r + 1 : ℕ) : ℂ) / ((2 * h : ℕ) : ℂ)
        = c * (j : ℂ) / ((2 * h : ℕ) : ℂ)
          + (c * ((j % h : ℕ) : ℂ) * (r : ℂ) / (h : ℂ) + c * ((r * (j / h) : ℕ) : ℂ)) := by
      push_cast
      rw [hj]
      field_simp
      ring
    rw [harg, Complex.exp_add, Complex.exp_add, hc (r * (j / h)), mul_one]
    ring

/-- The two phase constants used by the program satisfy the periodicity
hypothesis of `key_sum_split`. -/
theorem forward_phase_unit (k : ℕ) :
    Complex.exp (-Complex.I * 2 * Real.pi * k) = 1 := by
  have : -Complex.I * 2 * Real.pi * k = ((-(k : ℤ) : ℤ) : ℂ) * (2 * Real.pi * Complex.I) := by
    push_cast
    ring
  rw [this, Complex.exp_int_mul_two_pi_mul_I]

theorem inverse_phase_unit (k : ℕ) :
    Complex.exp (Complex.I * 2 * Real.pi * k) = 1 := by
  have : Complex.I * 2 * Real.pi * k = (((k : ℤ) : ℤ) : ℂ) * (2 * Real.pi * Complex.I) := by
    push_cast
    ring
  rw [this, Complex.exp_int_mul_two_pi_mul_I]

/-! ### Pointwise descriptions of the transforms -/

theorem ext_getD {l1 l2 : List ℂ} (hlen : l1.length = l2.length)
    (h : ∀ j, j < l1.length → l1.getD j 0 = l2.getD j 0) : l1 = l2 := by
  apply List.ext_getElem hlen
  intro n h1 h2
  have hd := h n h1
  rwa [List.getD_eq_getElem?_getD, List.getD_eq_getElem?_getD,
    List.getElem?_eq_getElem h1, List.getElem?_eq_getElem h2] at hd

theorem dft_length (s : List ℂ) : (dft s).length = s.length := by
  simp [dft]

theorem idft_length (s : List ℂ) : (idft s).length = s.length := by
  simp [idft]

theorem dft_getD {s : List ℂ} {k : ℕ} (h : k < s.length) :
    (dft s).getD k 0 = ∑ n ∈ Finset.range s.length,
      s.getD n 0 * Complex.exp (-Complex.I * 2 * Real.pi * k * n / s.length) := by
  simp only [dft]
  exact getD_map_range 0 h

theorem idft_getD {s : List ℂ} {n : ℕ} (h : n < s.length) :
    (idft s).getD n 0 = (∑ k ∈ Finset.range s.length,
      s.getD k 0 * Complex.exp (Complex.I * 2 * Real.pi * k * n / s.length)) / s.length := by
  simp only [idft]
  exact getD_map_range 0 h

theorem fft_step_spectrum_getD_lo {S : ℕ} {y : List ℂ} (hy : y.length = S)
    {j : ℕ} (hj : j < S / 2) :
    (fft_step_spectrum S y).getD j 0 = y.getD j 0 + W j S * y.getD (j + S / 2) 0 := by
  rw [fft_step_spectrum, butterfly_loop_getD_lo _ hy hj]

theorem fft_step_spectrum_getD_hi {S : ℕ} {y : List ℂ} (hy : y.length = S)
    {j : ℕ} (h1 : S / 2 ≤ j) (h2 : j < S / 2 + S / 2) :
    (fft_step_spectrum S y).getD j 0 = y.getD (j - S / 2) 0 + W j S * y.getD j 0 := by
  rw [fft_step_spectrum, butterfly_loop_getD_hi _ hy h1 h2]

theorem ifft_step_getD_lo {S : ℕ} {y : List ℂ} (hy : y.length = S)
    {j : ℕ} (hj : j < S / 2) :
    (ifft_step S y).getD j 0
      = (1 / 2 : ℂ) * (y.getD j 0 + Q j S * y.getD (j + S / 2) 0) := by
  rw [ifft_step, butterfly_loop_getD_lo _ hy hj]

theorem ifft_step_getD_hi {S : ℕ} {y : List ℂ} (hy : y.length = S)
    {j : ℕ} (h1 : S / 2 ≤ j) (h2 : j < S / 2 + S / 2) :
    (ifft_step S y).getD j 0
      = (1 / 2 : ℂ) * (y.getD (j - S / 2) 0 + Q j S * y.getD j 0) := by
  rw [ifft_step, butterfly_loop_getD_hi _ hy h1 h2]

/-! ### The Cooley-Tukey decomposition identities -/

/-- Forward decomposition: one `fft_step_spectrum` over the concatenated DFTs
of the even and odd samples yields the DFT of the signal.  This is exactly
what `prop_fft_is_decomposed_dft` exercises, and the induction step for
`fft = dft`. -/
theorem ct_forward (h : ℕ) (hpos : 0 < h) (s : List ℂ) (hs : s.length = 2 * h) :
    fft_step_spectrum (2 * h) (dft (evens s) ++ dft (odds s)) = dft s := by
  have hev : (evens s).length = h := by rw [evens_length, hs]; omega
  have hod : (odds s).length = h := by rw [odds_length, hs]; omega
  have hel : (dft (evens s)).length = h := by rw [dft_length, hev]
  have hol : (dft (odds s)).length = h := by rw [dft_length, hod]
  have hy : (dft (evens s) ++ dft (odds s)).length = 2 * h := by
    rw [List.length_append, hel, hol]; ring
  have hhalf : (2 * h) / 2 = h := by omega
  apply ext_getD
  · rw [fft_step_spectrum_length, hy, dft_length, hs]
  intro j hj
  rw [fft_step_spectrum_length, hy] at hj
  by_cases hcase : j < h
  · rw [fft_step_spectrum_getD_lo hy (by omega)]
    rw [hhalf]
    have e1 : (dft (evens s) ++ dft (odds s)).getD j 0 = (dft (evens s)).getD j 0 :=
      getD_append_left 0 (by omega)
    have e2 : (dft (evens s) ++ dft (odds s)).getD (j + h) 0 = (dft (odds s)).getD j 0 := by
      rw [getD_append_right 0 (by omega), hel]
      congr 1
      omega
    rw [e1, e2]
    rw [dft_getD (by rw [hev]; omega : j < (evens s).length),
      dft_getD (by rw [hod]; omega : j < (odds s).length),
      dft_getD (by rw [hs]; omega : j < s.length)]
    rw [hev, hod, hs]
    rw [key_sum_split (-Complex.I * 2 * (Real.pi : ℂ)) forward_phase_unit h hpos s hs j]
    rw [Nat.mod_eq_of_lt hcase]
    simp only [W]
  · rw [fft_step_spectrum_getD_hi hy (by omega) (by omega)]
    rw [hhalf]
    have e1 : (dft (evens s) ++ dft (odds s)).getD (j - h) 0
        = (dft (evens s)).getD (j - h) 0 :=
      getD_append_left 0 (by omega)
    have e2 : (dft (evens s) ++ dft (odds s)).getD j 0 = (dft (odds s)).getD (j - h) 0 := by
      rw [getD_append_right 0 (by omega), hel]
    rw [e1, e2]
    rw [dft_getD (by rw [hev]; omega : j - h < (evens s).length),
      dft_getD (by rw [hod]; omega : j - h < (odds s).length),
      dft_getD (by rw [hs]; omega : j < s.length)]
    rw [hev, hod, hs]
    rw [key_sum_split (-Complex.I * 2 * (Real.pi : ℂ)) forward_phase_unit h hpos s hs j]
    have hmod : j % h = j - h := by
      rw [Nat.mod_eq_sub_mod (by omega : h ≤ j), Nat.mod_eq_of_lt (by omega : j - h < h)]
    rw [hmod]
    simp only [W]

theorem sum_transpose_exp (c : ℂ) (v : List ℂ) (M j : ℕ) (d : ℂ) :
    ∑ k ∈ Finset.range M, v.getD k 0 * Complex.exp (c * k * j / d)
      = ∑ k ∈ Finset.range M, v.getD k 0 * Complex.exp (c * j * k / d) := by
  apply Finset.sum_congr rfl
  intro k _
  rw [mul_right_comm c (k : ℂ) (j : ℂ)]

/-- Inverse decomposition: one `ifft_step` over the concatenated inverse DFTs
of the even and odd samples yields `idft` of the signal; the per-stage `0.5`
accounts exactly for the ratio between the `1/N` and `1/(N/2)` scalings. -/
theorem ct_inverse (h : ℕ) (hpos : 0 < h) (s : List ℂ) (hs : s.length = 2 * h) :
    ifft_step (2 * h) (idft (evens s) ++ idft (odds s)) = idft s := by
  have hev : (evens s).length = h := by rw [evens_length, hs]; omega
  have hod : (odds s).length = h := by rw [odds_length, hs]; omega
  have hel : (idft (evens s)).length = h := by rw [idft_length, hev]
  have hol : (idft (odds s)).length = h := by rw [idft_length, hod]
  have hy : (idft (evens s) ++ idft (odds s)).length = 2 * h := by
    rw [List.length_append, hel, hol]; ring
  have hhalf : (2 * h) / 2 = h := by omega
  have hh : (h : ℂ) ≠ 0 := Nat.cast_ne_zero.mpr (by omega)
  apply ext_getD
  · rw [ifft_step_length, hy, idft_length, hs]
  intro j hj
  rw [ifft_step_length, hy] at hj
  by_cases hcase : j < h
  · rw [ifft_step_getD_lo hy (by omega)]
    rw [hhalf]
    have e1 : (idft (evens s) ++ idft (odds s)).getD j 0 = (idft (evens s)).getD j 0 :=
      getD_append_left 0 (by omega)
    have e2 : (idft (evens s) ++ idft (odds s)).getD (j + h) 0 = (idft (odds s)).getD j 0 := by
      rw [getD_append_right 0 (by omega), hel]
      congr 1
      omega
    rw [e1, e2]
    rw [idft_getD (by rw [hev]; omega : j < (evens s).length),
      idft_getD (by rw [hod]; omega : j < (odds s).length),
      idft_getD (by rw [hs]; omega : j < s.length)]
    rw [hev, hod, hs]
    rw [sum_transpose_exp (Complex.I * 2 * (Real.pi : ℂ)) (evens s) h j ((h : ℕ) : ℂ),
      sum_transpose_exp (Complex.I * 2 * (Real.pi : ℂ)) (odds s) h j ((h : ℕ) : ℂ),
      sum_transpose_exp (Complex.I * 2 * (Real.pi : ℂ)) s (2 * h) j (((2 * h : ℕ)) : ℂ)]
    rw [key_sum_split (Complex.I * 2 * (Real.pi : ℂ)) inverse_phase_unit h hpos s hs j]
    rw [Nat.mod_eq_of_lt hcase]
    simp only [Q]
    push_cast
    field_simp
  · rw [ifft_step_getD_hi hy (by omega) (by omega)]
    rw [hhalf]
    have e1 : (idft (evens s) ++ idft (odds s)).getD (j - h) 0
        = (idft (evens s)).getD (j - h) 0 :=
      getD_append_left 0 (by omega)
    have e2 : (idft (evens s) ++ idft (odds s)).getD j 0 = (idft (odds s)).getD (j - h) 0 := by
      rw [getD_append_right 0 (by omega), hel]
    rw [e1, e2]
    rw [idft_getD (by rw [hev]; omega : j - h < (evens s).length),
      idft_getD (by rw [hod]; omega : j - h < (odds s).length),
      idft_getD (by rw [hs]; omega : j < s.length)]
    rw [hev, hod, hs]
    rw [sum_transpose_exp (Complex.I * 2 * (Real.pi : ℂ)) (evens s) h (j - h) ((h : ℕ) : ℂ),
      sum_transpose_exp (Complex.I * 2 * (Real.pi : ℂ)) (odds s) h (j - h) ((h : ℕ) : ℂ),
      sum_transpose_exp (Complex.I * 2 * (Real.pi : ℂ)) s (2 * h) j (((2 * h : ℕ)) : ℂ)]
    rw [key_sum_split (Complex.I * 2 * (Real.pi : ℂ)) inverse_phase_unit h hpos s hs j]
    have hmod : j % h = j - h := by
      rw [Nat.mod_eq_sub_mod (by omega : j ≥ h), Nat.mod_eq_of_lt (by omega : j - h < h)]
    rw [hmod]
    simp only [Q]
    push_cast
    field_simp

/-! ### The bit-reversal permutation splits into even and odd halves -/

theorem bitRev_double (m : ℕ) : ∀ i, i < 2 ^ m → bitRev (m + 1) i = 2 * bitRev m i := by
  induction m with
  | zero =>
    intro i hi
    interval_cases i
    simp [bitRev]
  | succ m ih =>
    intro i hi
    have h2 : (2:ℕ) ^ (m + 1 + 1) = 2 * 2 ^ (m + 1) := by rw [pow_succ]; ring
    have hdiv : i / 2 < 2 ^ m := by
      have : (2:ℕ) ^ (m + 1) = 2 * 2 ^ m := by rw [pow_succ]; ring
      omega
    show i % 2 * 2 ^ (m + 1) + bitRev (m + 1) (i / 2) = 2 * (i % 2 * 2 ^ m + bitRev m (i / 2))
    rw [ih (i / 2) hdiv]
    have : (2:ℕ) ^ (m + 1) = 2 * 2 ^ m := by rw [pow_succ]; ring
    rw [this]
    ring

theorem bitRev_double_add (m : ℕ) :
    ∀ p, p < 2 ^ m → bitRev (m + 1) (2 ^ m + p) = 2 * bitRev m p + 1 := by
  induction m with
  | zero =>
    intro p hp
    interval_cases p
    simp [bitRev]
  | succ m ih =>
    intro p hp
    have h2 : (2:ℕ) ^ (m + 1) = 2 * 2 ^ m := by rw [pow_succ]; ring
    have hmod : (2 ^ (m + 1) + p) % 2 = p % 2 := by omega
    have hdiv : (2 ^ (m + 1) + p) / 2 = 2 ^ m + p / 2 := by omega
    have hdp : p / 2 < 2 ^ m := by omega
    show (2 ^ (m + 1) + p) % 2 * 2 ^ (m + 1) + bitRev (m + 1) ((2 ^ (m + 1) + p) / 2)
        = 2 * (p % 2 * 2 ^ m + bitRev m (p / 2)) + 1
    rw [hmod, hdiv, ih (p / 2) hdp, h2]
    ring

theorem bitrev_perm_length (m : ℕ) (s : List ℂ) : (bitrev_perm m s).length = 2 ^ m := by
  simp [bitrev_perm]

theorem bitrev_perm_split (m : ℕ) (s : List ℂ) (hs : s.length = 2 ^ (m + 1)) :
    bitrev_perm (m + 1) s = bitrev_perm m (evens s) ++ bitrev_perm m (odds s) := by
  have h2 : (2:ℕ) ^ (m + 1) = 2 ^ m + 2 ^ m := by rw [pow_succ]; ring
  have hhalf : s.length / 2 = 2 ^ m := by omega
  rw [bitrev_perm, h2, List.range_add, List.map_append, List.map_map]
  congr 1
  · apply List.map_congr_left
    intro i hi
    rw [List.mem_range] at hi
    rw [bitRev_double m i hi, evens_getD (by rw [hhalf]; exact bitRev_lt m i)]
  · apply List.map_congr_left
    intro i hi
    rw [List.mem_range] at hi
    show s.getD (bitRev (m + 1) (2 ^ m + i)) 0 = (odds s).getD (bitRev m i) 0
    rw [bitRev_double_add m i hi, odds_getD (by rw [hhalf]; exact bitRev_lt m i)]

/-! ### `fft_init` on power-of-two and non-power-of-two lengths -/

theorem seqMapOpt_some {f : ℕ → Option ℂ} {g : ℕ → ℂ} :
    ∀ l : List ℕ, (∀ i ∈ l, f i = some (g i)) → seqMapOpt f l = some (l.map g) := by
  intro l
  induction l with
  | nil => intro _; rfl
  | cons i is ih =>
    intro hfa
    rw [seqMapOpt, hfa i (by simp), ih (fun a ha => hfa a (by simp [ha]))]
    rfl

theorem seqMapOpt_length {f : ℕ → Option ℂ} :
    ∀ {l : List ℕ} {y : List ℂ}, seqMapOpt f l = some y → y.length = l.length := by
  intro l
  induction l with
  | nil =>
    intro y hy
    rw [seqMapOpt] at hy
    cases hy
    rfl
  | cons i is ih =>
    intro y hy
    rw [seqMapOpt] at hy
    cases hfi : f i with
    | none => rw [hfi] at hy; cases hy
    | some c =>
      rw [hfi] at hy
      cases hrest : seqMapOpt f is with
      | none => rw [hrest] at hy; cases hy
      | some l2 =>
        rw [hrest] at hy
        cases hy
        simp [ih hrest]

theorem fft_init_pow {m : ℕ} {s : List ℂ} (hs : s.length = 2 ^ m) :
    fft_init s = some (bitrev_perm m s) := by
  rw [fft_init, hs, bitrev_perm]
  apply seqMapOpt_some
  intro i _
  rw [reverse_bits_pow m i]
  rfl

theorem fft_init_not_pow {s : List ℂ} (h1 : 1 ≤ s.length) (h2 : ∀ k, s.length ≠ 2 ^ k) :
    fft_init s = none := by
  have hrb : reverse_bits 0 s.length = none := reverse_bits_not_pow h2 0
  rw [fft_init]
  obtain ⟨L, hL⟩ : ∃ L, s.length = L + 1 := ⟨s.length - 1, by omega⟩
  rw [hL] at hrb
  conv_lhs => rw [hL, List.range_succ_eq_map]
  simp [seqMapOpt, hrb]

/-! ### The iterative forward driver computes the DFT -/

theorem fft_step_length (T S : ℕ) (y : List ℂ) : (fft_step T S y).length = y.length :=
  blockwise_length (fft_step_spectrum_length S) S T y

/-- Running the forward stage loop on a doubled signal splits into the two
halves' runs followed by one final whole-width butterfly stage. -/
theorem fft_loop_append (m : ℕ) :
    ∀ k, k ≤ m → ∀ a b : List ℂ, a.length = 2 ^ m → b.length = 2 ^ m →
      fft_loop (2 ^ (m + 1)) (2 ^ k) (a ++ b)
        = fft_step_spectrum (2 ^ (m + 1))
            (fft_loop (2 ^ m) (2 ^ k / 2) a ++ fft_loop (2 ^ m) (2 ^ k / 2) b) := by
  intro k
  induction k with
  | zero =>
    intro _ a b ha hb
    have hlen : (a ++ b).length = 2 ^ (m + 1) := by
      rw [List.length_append, ha, hb, pow_succ]; ring
    rw [show (2:ℕ) ^ 0 = 1 from rfl]
    rw [fft_loop_succ _ _ _ (by norm_num), Nat.div_one]
    rw [show (1:ℕ) / 2 = 0 from rfl, fft_loop_zero, fft_loop_zero, fft_loop_zero]
    rw [fft_step, blockwise_one _ _ _ hlen]
  | succ k ih =>
    intro hk a b ha hb
    have hk1 : k ≤ m := by omega
    have hT2 : (2:ℕ) ^ (k + 1) / 2 = 2 ^ k := by rw [pow_succ]; omega
    have hS : (2:ℕ) ^ (m + 1) / 2 ^ (k + 1) = 2 ^ (m - k) := by
      rw [Nat.pow_div (by omega) (by norm_num)]
      congr 1
      omega
    have hS2 : (2:ℕ) ^ m / 2 ^ k = 2 ^ (m - k) := by
      rw [Nat.pow_div hk1 (by norm_num)]
    have hablock : a.length = 2 ^ k * 2 ^ (m - k) := by
      rw [ha, ← pow_add]
      congr 1
      omega
    rw [fft_loop_succ _ _ _ Nat.one_le_two_pow]
    rw [hT2, hS]
    have hsplit : fft_step (2 ^ (k + 1)) (2 ^ (m - k)) (a ++ b)
        = fft_step (2 ^ k) (2 ^ (m - k)) a ++ fft_step (2 ^ k) (2 ^ (m - k)) b := by
      rw [fft_step, fft_step, fft_step]
      rw [show (2:ℕ) ^ (k + 1) = 2 ^ k + 2 ^ k by rw [pow_succ]; ring]
      exact blockwise_append _ _ _ _ _ _ hablock
    rw [hsplit]
    rw [ih hk1 _ _ (by rw [fft_step_length, ha]) (by rw [fft_step_length, hb])]
    conv_rhs => rw [fft_loop_succ (2 ^ m) (2 ^ k) a Nat.one_le_two_pow,
      fft_loop_succ (2 ^ m) (2 ^ k) b Nat.one_le_two_pow, hS2]

/-- The full iterative pipeline (bit-reversal permutation followed by the
stage loop) computes the direct DFT, for any power-of-two length. -/
theorem fft_loop_bitrev_dft : ∀ (m : ℕ) (s : List ℂ), s.length = 2 ^ m →
    fft_loop (2 ^ m) (2 ^ m / 2) (bitrev_perm m s) = dft s := by
  intro m
  induction m with
  | zero =>
    intro s hs
    rw [show (2:ℕ) ^ 0 / 2 = 0 from rfl, fft_loop_zero]
    apply ext_getD
    · rw [bitrev_perm_length, dft_length, hs]
    intro j hj
    rw [bitrev_perm_length] at hj
    have hj0 : j = 0 := by simpa using hj
    subst hj0
    rw [bitrev_perm, getD_map_range 0 (by norm_num), dft_getD (by omega), hs]
    rw [show (2:ℕ) ^ 0 = 1 from rfl, Finset.sum_range_one]
    simp [bitRev, Complex.exp_zero]
  | succ m ih =>
    intro s hs
    have hev : (evens s).length = 2 ^ m := by
      rw [evens_length, hs, pow_succ]; omega
    have hod : (odds s).length = 2 ^ m := by
      rw [odds_length, hs, pow_succ]; omega
    rw [bitrev_perm_split m s hs]
    rw [show (2:ℕ) ^ (m + 1) / 2 = 2 ^ m by rw [pow_succ]; omega]
    rw [fft_loop_append m m le_rfl _ _ (bitrev_perm_length m (evens s))
      (bitrev_perm_length m (odds s))]
    rw [ih (evens s) hev, ih (odds s) hod]
    rw [show (2:ℕ) ^ (m + 1) = 2 * 2 ^ m by rw [pow_succ]; ring]
    exact ct_forward (2 ^ m) (pow_pos (by norm_num) m) s
      (by rw [hs, pow_succ]; ring)

/-- `fft` agrees exactly with `dft` on every power-of-two length. -/
theorem fft_eq_dft {m : ℕ} {s : List ℂ} (hs : s.length = 2 ^ m) :
    fft s = some (dft s) := by
  rw [fft, fft_init_pow hs]
  simp only [Option.map_some']
  rw [hs, fft_loop_bitrev_dft m s hs]

/-! ### The iterative inverse driver computes the inverse DFT -/

/-- Running the ascending inverse stage loop on a doubled signal from stage
`S = 2^j` on splits into the halves' runs followed by one final whole-width
inverse butterfly stage. -/
theorem ifft_loop_append (m : ℕ) :
    ∀ d j, j + d = m + 1 → 1 ≤ j → ∀ a b : List ℂ, a.length = 2 ^ m → b.length = 2 ^ m →
      ifft_loop (2 ^ (m + 1)) (2 ^ (m + 1) / 2 ^ j) (2 ^ j) (a ++ b)
        = (ifft_loop (2 ^ m) (2 ^ m / 2 ^ j) (2 ^ j) a).bind fun x =>
            (ifft_loop (2 ^ m) (2 ^ m / 2 ^ j) (2 ^ j) b).bind fun z =>
              some (ifft_step (2 ^ (m + 1)) (x ++ z)) := by
  intro d
  induction d with
  | zero =>
    intro j hjd _ a b ha hb
    have hj1 : j = m + 1 := by omega
    subst hj1
    have hone : (1:ℕ) ≤ 2 ^ (m + 1) := Nat.one_le_two_pow
    have hT : (2:ℕ) ^ (m + 1) / 2 ^ (m + 1) = 1 := by
      rw [Nat.pow_div le_rfl (by norm_num)]
      simp
    rw [hT, ifft_loop_enter _ _ _ _ ⟨Nat.one_le_two_pow, le_rfl⟩ (one_mul _)]
    rw [blockwise_one _ _ _ (by rw [List.length_append, ha, hb, pow_succ]; ring)]
    rw [ifft_loop_exit _ _ _ _ (by intro hcon; omega)]
    have hlt : (2:ℕ) ^ m < 2 ^ (m + 1) := Nat.pow_lt_pow_right (by norm_num) (by omega)
    rw [ifft_loop_exit _ _ _ _ (by intro hcon; omega),
      ifft_loop_exit _ _ _ _ (by intro hcon; omega)]
    simp
  | succ d ihd =>
    intro j hjd hj1 a b ha hb
    have hjm : j ≤ m := by omega
    have hone : (1:ℕ) ≤ 2 ^ j := Nat.one_le_two_pow
    have hT : (2:ℕ) ^ (m + 1) / 2 ^ j = 2 ^ (m + 1 - j) := by
      rw [Nat.pow_div (by omega) (by norm_num)]
    have hTa : (2:ℕ) ^ m / 2 ^ j = 2 ^ (m - j) := by
      rw [Nat.pow_div hjm (by norm_num)]
    have hT2 : (2:ℕ) ^ (m + 1 - j) = 2 ^ (m - j) + 2 ^ (m - j) := by
      have : m + 1 - j = (m - j) + 1 := by omega
      rw [this, pow_succ]
      ring
    have hablock : a.length = 2 ^ (m - j) * 2 ^ j := by
      rw [ha, ← pow_add]
      congr 1
      omega
    have hSle : (2:ℕ) ^ j ≤ 2 ^ (m + 1) := Nat.pow_le_pow_right (by norm_num) (by omega)
    have hSle2 : (2:ℕ) ^ j ≤ 2 ^ m := Nat.pow_le_pow_right (by norm_num) hjm
    have hassert : 2 ^ (m + 1) / 2 ^ j * 2 ^ j = 2 ^ (m + 1) := by
      rw [hT, ← pow_add]
      congr 1
      omega
    have hassert2 : 2 ^ m / 2 ^ j * 2 ^ j = 2 ^ m := by
      rw [hTa, ← pow_add]
      congr 1
      omega
    have hhalfT : 2 ^ (m + 1) / 2 ^ j / 2 = 2 ^ (m + 1) / 2 ^ (j + 1) := by
      rw [Nat.div_div_eq_div_mul, ← pow_succ]
    have hhalfTa : 2 ^ m / 2 ^ j / 2 = 2 ^ m / 2 ^ (j + 1) := by
      rw [Nat.div_div_eq_div_mul, ← pow_succ]
    rw [ifft_loop_enter _ _ _ _ ⟨hone, hSle⟩ hassert]
    have hsplit : blockwise (ifft_step (2 ^ j)) (2 ^ j) (2 ^ (m + 1) / 2 ^ j) (a ++ b)
        = blockwise (ifft_step (2 ^ j)) (2 ^ j) (2 ^ (m - j)) a
          ++ blockwise (ifft_step (2 ^ j)) (2 ^ j) (2 ^ (m - j)) b := by
      rw [hT, hT2]
      exact blockwise_append _ _ _ _ _ _ hablock
    rw [hsplit, hhalfT, show 2 * 2 ^ j = 2 ^ (j + 1) by rw [pow_succ]; ring]
    have hBa : (blockwise (ifft_step (2 ^ j)) (2 ^ j) (2 ^ (m - j)) a).length = 2 ^ m := by
      rw [blockwise_length (ifft_step_length (2 ^ j)), ha]
    have hBb : (blockwise (ifft_step (2 ^ j)) (2 ^ j) (2 ^ (m - j)) b).length = 2 ^ m := by
      rw [blockwise_length (ifft_step_length (2 ^ j)), hb]
    rw [ihd (j + 1) (by omega) (by omega) _ _ hBa hBb]
    rw [ifft_loop_enter (2 ^ m) (2 ^ m / 2 ^ j) (2 ^ j) a ⟨hone, hSle2⟩ hassert2,
      ifft_loop_enter (2 ^ m) (2 ^ m / 2 ^ j) (2 ^ j) b ⟨hone, hSle2⟩ hassert2]
    rw [hhalfTa, hTa, show 2 * 2 ^ j = 2 ^ (j + 1) by rw [pow_succ]; ring]

/-- The full inverse pipeline (bit-reversal permutation followed by the
ascending stage loop) computes the inverse DFT, for any power-of-two length. -/
theorem ifft_loop_bitrev_idft : ∀ (m : ℕ) (s : List ℂ), s.length = 2 ^ m →
    ifft_loop (2 ^ m) (2 ^ m / 2) 2 (bitrev_perm m s) = some (idft s) := by
  intro m
  induction m with
  | zero =>
    intro s hs
    rw [ifft_loop_exit _ _ _ _ (by intro hcon; norm_num at hcon)]
    congr 1
    apply ext_getD
    · rw [bitrev_perm_length, idft_length, hs]
    intro j hj
    rw [bitrev_perm_length] at hj
    have hj0 : j = 0 := by simpa using hj
    subst hj0
    rw [bitrev_perm, getD_map_range 0 (by norm_num), idft_getD (by omega), hs]
    rw [show (2:ℕ) ^ 0 = 1 from rfl, Finset.sum_range_one]
    simp [bitRev, Complex.exp_zero]
  | succ m ih =>
    intro s hs
    have hev : (evens s).length = 2 ^ m := by
      rw [evens_length, hs, pow_succ]; omega
    have hod : (odds s).length = 2 ^ m := by
      rw [odds_length, hs, pow_succ]; omega
    rw [bitrev_perm_split m s hs]
    have happ := ifft_loop_append m m 1 (by omega) (by omega)
      (bitrev_perm m (evens s)) (bitrev_perm m (odds s))
      (bitrev_perm_length m (evens s)) (bitrev_perm_length m (odds s))
    norm_num at happ
    rw [happ, ih (evens s) hev, ih (odds s) hod]
    simp only [Option.some_bind]
    congr 1
    rw [show (2:ℕ) ^ (m + 1) = 2 * 2 ^ m by rw [pow_succ]; ring]
    exact ct_inverse (2 ^ m) (pow_pos (by norm_num) m) s (by rw [hs, pow_succ]; ring)

/-- `ifft` agrees exactly with `idft` on every power-of-two length. -/
theorem ifft_eq_idft {m : ℕ} {s : List ℂ} (hs : s.length = 2 ^ m) :
    ifft s = some (idft s) := by
  rw [ifft, fft_init_pow hs]
  simp only [Option.some_bind]
  rw [hs, ifft_loop_bitrev_idft m s hs]

/-! ### Fourier inversion for the reference pair -/

theorem exp_sum_orthogonal {N : ℕ} (hN : 0 < N) {n j : ℕ} (hn : n < N) (hj : j < N) :
    ∑ k ∈ Finset.range N,
      Complex.exp (Complex.I * 2 * Real.pi * ((n : ℂ) - (j : ℂ)) / N) ^ k
      = if j = n then (N : ℂ) else 0 := by
  have hNc : ((N : ℕ) : ℂ) ≠ 0 := Nat.cast_ne_zero.mpr (by omega)
  by_cases hjn : j = n
  · subst hjn
    rw [if_pos rfl]
    simp [Complex.exp_zero, Finset.card_range]
  · rw [if_neg hjn]
    have hI2pi : Complex.I * 2 * (Real.pi : ℂ) ≠ 0 :=
      mul_ne_zero (mul_ne_zero Complex.I_ne_zero (by norm_num))
        (Complex.ofReal_ne_zero.mpr Real.pi_ne_zero)
    have hz1 : Complex.exp (Complex.I * 2 * Real.pi * ((n : ℂ) - (j : ℂ)) / N) ≠ 1 := by
      intro hcon
      rw [Complex.exp_eq_one_iff] at hcon
      obtain ⟨t, ht⟩ := hcon
      have h4 := congrArg (fun w => w * ((N : ℕ) : ℂ)) ht
      simp only at h4
      rw [div_mul_cancel₀ _ hNc] at h4
      have h5 : (Complex.I * 2 * (Real.pi : ℂ)) * ((n : ℂ) - (j : ℂ))
          = (Complex.I * 2 * (Real.pi : ℂ)) * ((t : ℂ) * ((N : ℕ) : ℂ)) := by
        linear_combination h4
      have h6 := mul_left_cancel₀ hI2pi h5
      have h7 : (n : ℤ) - (j : ℤ) = t * (N : ℤ) := by exact_mod_cast h6
      rcases lt_trichotomy t 0 with htc | htc | htc
      · have ht1 : t ≤ -1 := by omega
        have : t * (N : ℤ) ≤ -1 * (N : ℤ) := by
          apply mul_le_mul_of_nonneg_right ht1 (by omega)
        omega
      · subst htc
        simp at h7
        omega
      · have ht1 : 1 ≤ t := by omega
        have : 1 * (N : ℤ) ≤ t * (N : ℤ) := by
          apply mul_le_mul_of_nonneg_right ht1 (by omega)
        omega
    rw [geom_sum_eq hz1]
    have hzN : Complex.exp (Complex.I * 2 * Real.pi * ((n : ℂ) - (j : ℂ)) / N) ^ N = 1 := by
      rw [← Complex.exp_nat_mul]
      have harg : ((N : ℕ) : ℂ) * (Complex.I * 2 * Real.pi * ((n : ℂ) - (j : ℂ)) / N)
          = (((n : ℤ) - (j : ℤ) : ℤ) : ℂ) * (2 * (Real.pi : ℂ) * Complex.I) := by
        push_cast
        field_simp
        ring
      rw [harg, Complex.exp_int_mul_two_pi_mul_I]
    rw [hzN]
    simp

/-- `idft` inverts `dft` exactly, for every signal. -/
theorem idft_dft (s : List ℂ) : idft (dft s) = s := by
  rcases Nat.eq_zero_or_pos s.length with h0 | hpos
  · have he : s = [] := List.eq_nil_of_length_eq_zero h0
    subst he
    rfl
  · have hNc : ((s.length : ℕ) : ℂ) ≠ 0 := Nat.cast_ne_zero.mpr (by omega)
    apply ext_getD
    · rw [idft_length, dft_length]
    intro n hn
    rw [idft_length, dft_length] at hn
    rw [idft_getD (by rw [dft_length]; exact hn), dft_length]
    have step1 : ∑ k ∈ Finset.range s.length,
        (dft s).getD k 0 * Complex.exp (Complex.I * 2 * Real.pi * k * n / s.length)
        = ∑ k ∈ Finset.range s.length, ∑ j ∈ Finset.range s.length,
            s.getD j 0 * Complex.exp (-Complex.I * 2 * Real.pi * k * j / s.length)
              * Complex.exp (Complex.I * 2 * Real.pi * k * n / s.length) := by
      apply Finset.sum_congr rfl
      intro k hk
      rw [Finset.mem_range] at hk
      rw [dft_getD hk, Finset.sum_mul]
    have step2 : ∑ k ∈ Finset.range s.length, ∑ j ∈ Finset.range s.length,
        s.getD j 0 * Complex.exp (-Complex.I * 2 * Real.pi * k * j / s.length)
          * Complex.exp (Complex.I * 2 * Real.pi * k * n / s.length)
        = ∑ j ∈ Finset.range s.length, s.getD j 0 *
            ∑ k ∈ Finset.range s.length,
              Complex.exp (Complex.I * 2 * Real.pi * ((n : ℂ) - (j : ℂ)) / s.length) ^ k := by
      rw [Finset.sum_comm]
      apply Finset.sum_congr rfl
      intro j hj
      rw [Finset.mem_range] at hj
      rw [Finset.mul_sum]
      apply Finset.sum_congr rfl
      intro k hk
      rw [mul_assoc]
      congr 1
      rw [← Complex.exp_add, ← Complex.exp_nat_mul]
      congr 1
      field_simp
      ring
    rw [step1, step2]
    have step3 : ∑ j ∈ Finset.range s.length, s.getD j 0 *
        ∑ k ∈ Finset.range s.length,
          Complex.exp (Complex.I * 2 * Real.pi * ((n : ℂ) - (j : ℂ)) / s.length) ^ k
        = s.getD n 0 * s.length := by
      rw [Finset.sum_eq_single_of_mem n (Finset.mem_range.mpr hn)]
      · rw [exp_sum_orthogonal hpos hn hn, if_pos rfl]
      · intro b hb hbn
        rw [Finset.mem_range] at hb
        rw [exp_sum_orthogonal hpos hn hb, if_neg hbn, mul_zero]
    rw [step3, mul_div_cancel_right₀ _ hNc]

/-! ### The RMS residual -/

theorem zipWith_sub_getD {a b : List ℂ} {i : ℕ} (ha : i < a.length) (hb : i < b.length) :
    (List.zipWith (fun x y => x - y) a b).getD i 0 = a.getD i 0 - b.getD i 0 := by
  rw [List.getD_eq_getElem?_getD, List.getElem?_zipWith,
    List.getElem?_eq_getElem ha, List.getElem?_eq_getElem hb,
    List.getD_eq_getElem?_getD, List.getD_eq_getElem?_getD,
    List.getElem?_eq_getElem ha, List.getElem?_eq_getElem hb]
  rfl

/-- With equal lengths, `error` computes exactly the spec's formula
`sqrt(Re(Σ (aᵢ-bᵢ)·conj(aᵢ-bᵢ)) / N)` over the common length `N`. -/
theorem error_eq {a b : List ℂ} (h : a.length = b.length) :
    error a b = some (Real.sqrt
      ((∑ i ∈ Finset.range a.length,
        dotc (a.getD i 0 - b.getD i 0) (a.getD i 0 - b.getD i 0)).re / a.length)) := by
  rw [error, subSignal, if_pos h]
  simp only [Option.some_bind]
  have he : (List.zipWith (fun x y => x - y) a b).length = a.length := by
    rw [List.length_zipWith, h, min_self]
  rw [dotSignal, if_pos rfl]
  simp only [Option.map_some']
  have hsum : ∑ i ∈ Finset.range (List.zipWith (fun x y => x - y) a b).length,
      dotc ((List.zipWith (fun x y => x - y) a b).getD i 0)
        ((List.zipWith (fun x y => x - y) a b).getD i 0)
      = ∑ i ∈ Finset.range a.length,
          dotc (a.getD i 0 - b.getD i 0) (a.getD i 0 - b.getD i 0) := by
    rw [he]
    apply Finset.sum_congr rfl
    intro i hi
    rw [Finset.mem_range] at hi
    rw [zipWith_sub_getD hi (by omega)]
  rw [hsum, he]

theorem error_none {a b : List ℂ} (h : a.length ≠ b.length) : error a b = none := by
  rw [error, subSignal, if_neg h]
  rfl

theorem error_self (a : List ℂ) : error a a = some 0 := by
  rw [error_eq rfl]
  have hz : ∀ i ∈ Finset.range a.length,
      dotc (a.getD i 0 - a.getD i 0) (a.getD i 0 - a.getD i 0) = 0 := by
    intro i _
    simp [dotc]
  rw [Finset.sum_congr rfl hz, Finset.sum_const_zero]
  simp

theorem eps_pos : (0 : ℝ) < eps := by norm_num [eps]

/-! ### The remaining differential-test properties of the source -/

noncomputable section

/-- `prop_inverse_dft(test_signal)` from the source. -/
def prop_inverse_dft (s : List ℂ) : Option ℝ := error s (idft (dft s))

/-- `prop_inverse_fft(test_signal)` from the source, with the iterative
transforms' possible divergence threaded through `Option`. -/
def prop_inverse_fft (s : List ℂ) : Option ℝ :=
  (fft s).bind fun f => (ifft f).bind fun r => error s r

/-- `prop_dft_equal_fft(test_signal)` from the source. -/
def prop_dft_equal_fft (s : List ℂ) : Option ℝ :=
  (fft s).bind fun f => error (dft s) f

/-- `prop_idft_equal_ifft(test_signal)` from the source. -/
def prop_idft_equal_ifft (s : List ℂ) : Option ℝ :=
  (ifft s).bind fun f => error (idft s) f

end

/-! ### The OpenCL orchestration of `Fourier::fft`

The device kernels live in `fourier.cl`, outside this repository's sources;
what `Fourier::fft` itself contributes is the dispatch protocol: one upload,
one `fft_init` dispatch, a ping-pong of `fft_step` dispatches with doubling
`B`, and one download.  That protocol is modelled as the trace of backend
operations the method issues. -/

namespace Fourier

/-- The three device buffers the class owns (`m_x_mem`, `m_y1_mem`, `m_y2_mem`). -/
inductive Buf
  | X
  | Y1
  | Y2

/-- One backend operation issued by `Fourier::fft`: a blocking upload into a
buffer, an `fft_init` kernel dispatch, an `fft_step` kernel dispatch with its
`B` argument, or a blocking download from a buffer. -/
inductive Ev
  | load (dst : Buf)
  | initDispatch (src : Buf) (samplePower : ℕ) (dst : Buf)
  | stepDispatch (src : Buf) (B : ℕ) (dst : Buf)
  | store (src : Buf)

/-- The `while (B != sample_count)` dispatch loop of `Fourier::fft`: the
dispatches issued, and the buffer the result ends in.  The extra exits
(`B = 0`, `N < B`) are unreachable from the real entry `B = 1` with
`N = 2^m`; they only make the model total (the C loop would never exit
there). -/
def fft_dispatch_loop (y y2 : Buf) (B N : ℕ) : List Ev × Buf :=
  if h : B = N ∨ B = 0 ∨ N < B then ([], y)
  else
    let r := fft_dispatch_loop y2 y (2 * B) N
    (Ev.stepDispatch y B y2 :: r.1, r.2)
termination_by N - B
decreasing_by omega

/-- The backend-operation trace of `Fourier::fft` at `sample_power = m`
(`sample_count = 2^m`): upload the signal into X, dispatch `fft_init` into
Y1, run the ping-pong `fft_step` dispatches, download the final buffer. -/
def fft (m : ℕ) : List Ev :=
  Ev.load Buf.X :: Ev.initDispatch Buf.X m Buf.Y1 ::
    ((fft_dispatch_loop Buf.Y1 Buf.Y2 1 (2 ^ m)).1
      ++ [Ev.store (fft_dispatch_loop Buf.Y1 Buf.Y2 1 (2 ^ m)).2])

/-- Which buffer of the ping-pong pair holds stage `i`'s input (equivalently,
stage `i - 1`'s output): `Y1` for even `i`, `Y2` for odd `i`. -/
def pingpong (i : ℕ) : Buf := if i % 2 = 0 then Buf.Y1 else Buf.Y2

/-- Buffer-role alternation starting from an arbitrary pair. -/
def alt (y y2 : Buf) (i : ℕ) : Buf := if i % 2 = 0 then y else y2

theorem alt_succ (y y2 : Buf) (i : ℕ) : alt y y2 (i + 1) = alt y2 y i := by
  by_cases h : i % 2 = 0
  · have h1 : (i + 1) % 2 = 1 := by omega
    simp [alt, h, h1]
  · have h1 : (i + 1) % 2 = 0 := by omega
    simp [alt, h, h1]

theorem fft_dispatch_loop_exit (y y2 : Buf) (B N : ℕ) (h : B = N ∨ B = 0 ∨ N < B) :
    fft_dispatch_loop y y2 B N = ([], y) := by
  rw [fft_dispatch_loop]
  simp [h]

theorem fft_dispatch_loop_step (y y2 : Buf) (B N : ℕ) (h : ¬ (B = N ∨ B = 0 ∨ N < B)) :
    fft_dispatch_loop y y2 B N
      = (Ev.stepDispatch y B y2 :: (fft_dispatch_loop y2 y (2 * B) N).1,
         (fft_dispatch_loop y2 y (2 * B) N).2) := by
  rw [fft_dispatch_loop]
  simp [h]

theorem fft_dispatch_loop_pow (k : ℕ) : ∀ (j : ℕ) (y y2 : Buf),
    fft_dispatch_loop y y2 (2 ^ j) (2 ^ (j + k))
      = ((List.range k).map fun i =>
          Ev.stepDispatch (alt y y2 i) (2 ^ (j + i)) (alt y y2 (i + 1)),
         alt y y2 k) := by
  induction k with
  | zero =>
    intro j y y2
    rw [Nat.add_zero]
    rw [fft_dispatch_loop_exit y y2 (2 ^ j) (2 ^ j) (Or.inl rfl)]
    simp [alt]
  | succ k ih =>
    intro j y y2
    have hne : (2:ℕ) ^ j ≠ 2 ^ (j + (k + 1)) :=
      Nat.ne_of_lt (Nat.pow_lt_pow_right (by norm_num) (by omega))
    have hnz : (2:ℕ) ^ j ≠ 0 := by positivity
    have hle : (2:ℕ) ^ j ≤ 2 ^ (j + (k + 1)) :=
      Nat.pow_le_pow_right (by norm_num) (by omega)
    rw [fft_dispatch_loop_step y y2 _ _ (by push_neg; exact ⟨hne, hnz, hle⟩)]
    rw [show 2 * 2 ^ j = 2 ^ (j + 1) by rw [pow_succ]; ring,
      show j + (k + 1) = (j + 1) + k by omega, ih (j + 1) y2 y]
    rw [List.range_succ_eq_map, List.map_cons, List.map_map]
    have hhead : Ev.stepDispatch (alt y y2 0) (2 ^ (j + 0)) (alt y y2 (0 + 1))
        = Ev.stepDispatch y (2 ^ j) y2 := by
      simp [alt]
    have htail : (List.range k).map
        ((fun i => Ev.stepDispatch (alt y y2 i) (2 ^ (j + i)) (alt y y2 (i + 1)))
          ∘ Nat.succ)
        = (List.range k).map fun i =>
            Ev.stepDispatch (alt y2 y i) (2 ^ (j + 1 + i)) (alt y2 y (i + 1)) := by
      apply List.map_congr_left
      intro i _
      simp only [Function.comp]
      rw [alt_succ, show i.succ + 1 = (i + 1) + 1 from rfl, alt_succ,
        show j + i.succ = j + 1 + i by omega]
    rw [hhead, htail, alt_succ]

end Fourier

/-! ### Length preservation and small-input behaviour of `fft` / `ifft` -/

theorem fft_loop_length (N : ℕ) : ∀ T (y : List ℂ), (fft_loop N T y).length = y.length := by
  intro T
  induction T using Nat.strong_induction_on with
  | _ T ih =>
    intro y
    by_cases h : 1 ≤ T
    · rw [fft_loop_succ N T y h, ih (T / 2) (by omega), fft_step_length]
    · have h0 : T = 0 := by omega
      subst h0
      rw [fft_loop_zero]

theorem ifft_loop_length (N : ℕ) :
    ∀ d S T (y r : List ℂ), d = N + 1 - S → ifft_loop N T S y = some r →
      r.length = y.length := by
  intro d
  induction d using Nat.strong_induction_on with
  | _ d ih =>
    intro S T y r hd h
    by_cases hc : 1 ≤ S ∧ S ≤ N
    · by_cases ha : T * S = N
      · rw [ifft_loop_enter N T S y hc ha] at h
        have hr := ih (N + 1 - 2 * S) (by omega) (2 * S) (T / 2) _ r rfl h
        rw [hr, blockwise_length (ifft_step_length S)]
      · rw [ifft_loop] at h
        simp [hc, ha] at h
    · rw [ifft_loop_exit N T S y hc] at h
      cases h
      rfl

theorem fft_init_length {s y : List ℂ} (h : fft_init s = some y) : y.length = s.length := by
  rw [fft_init] at h
  exact (seqMapOpt_length h).trans (List.length_range s.length)

theorem fft_length_some {s r : List ℂ} (h : fft s = some r) : r.length = s.length := by
  rw [fft] at h
  cases hinit : fft_init s with
  | none => rw [hinit] at h; cases h
  | some y =>
    rw [hinit] at h
    simp only [Option.map_some'] at h
    cases h
    rw [fft_loop_length, fft_init_length hinit]

theorem ifft_length_some {s r : List ℂ} (h : ifft s = some r) : r.length = s.length := by
  rw [ifft] at h
  cases hinit : fft_init s with
  | none => rw [hinit] at h; cases h
  | some y =>
    rw [hinit] at h
    simp only [Option.some_bind] at h
    rw [ifft_loop_length s.length (s.length + 1 - 2) 2 (s.length / 2) y r rfl h,
      fft_init_length hinit]

theorem fft_none {s : List ℂ} (h1 : 1 ≤ s.length) (h2 : ∀ k, s.length ≠ 2 ^ k) :
    fft s = none := by
  rw [fft, fft_init_not_pow h1 h2]
  rfl

theorem ifft_none {s : List ℂ} (h1 : 1 ≤ s.length) (h2 : ∀ k, s.length ≠ 2 ^ k) :
    ifft s = none := by
  rw [ifft, fft_init_not_pow h1 h2]
  rfl

theorem fft_empty : fft ([] : List ℂ) = some [] := by
  rw [fft, show fft_init ([] : List ℂ) = some [] from rfl]
  simp [fft_loop_zero]

theorem ifft_empty : ifft ([] : List ℂ) = some [] := by
  rw [ifft, show fft_init ([] : List ℂ) = some [] from rfl]
  simp only [Option.some_bind]
  rw [ifft_loop_exit _ _ _ _ (by simp)]

theorem dft_singleton (x : ℂ) : dft [x] = [x] := by
  apply ext_getD
  · rw [dft_length]
  intro j hj
  rw [dft_length] at hj
  have hj0 : j = 0 := by simpa using hj
  subst hj0
  rw [dft_getD (by simp)]
  simp [Finset.sum_range_one, Complex.exp_zero]

theorem idft_singleton (x : ℂ) : idft [x] = [x] := by
  apply ext_getD
  · rw [idft_length]
  intro j hj
  rw [idft_length] at hj
  have hj0 : j = 0 := by simpa using hj
  subst hj0
  rw [idft_getD (by simp)]
  simp [Finset.sum_range_one, Complex.exp_zero]

/-! ### Block-offset view of a whole butterfly stage -/

theorem blockwise_getD {f : List ℂ → List ℂ} (hf : ∀ z, (f z).length = z.length)
    (S : ℕ) :
    ∀ t T (y : List ℂ), y.length = T * S → t < T → ∀ j, j < S →
      (blockwise f S T y).getD (t * S + j) 0 = (f ((y.drop (t * S)).take S)).getD j 0 := by
  intro t
  induction t with
  | zero =>
    intro T y hy ht j hj
    obtain ⟨T1, rfl⟩ : ∃ T1, T = T1 + 1 := ⟨T - 1, by omega⟩
    have hyl : y.length = T1 * S + S := by rw [hy]; ring
    simp only [blockwise, Nat.zero_mul, Nat.zero_add]
    rw [getD_append_left 0 (by rw [hf, List.length_take]; omega), List.drop_zero]
  | succ t ih =>
    intro T y hy ht j hj
    obtain ⟨T1, rfl⟩ : ∃ T1, T = T1 + 1 := ⟨T - 1, by omega⟩
    have hyl : y.length = T1 * S + S := by rw [hy]; ring
    simp only [blockwise]
    have hfl : (f (y.take S)).length = S := by
      rw [hf, List.length_take]
      omega
    have hts : (t + 1) * S = t * S + S := by ring
    rw [getD_append_right 0 (by rw [hfl]; omega)]
    rw [hfl]
    rw [show (t + 1) * S + j - S = t * S + j by omega]
    rw [ih T1 (y.drop S) (by rw [List.length_drop]; omega) (by omega) j hj]
    rw [List.drop_drop, show S + t * S = (t + 1) * S by ring]

/-! ### The inverse transforms exhibit the same overall `1/N` factor -/

theorem idft_eq_scale (s : List ℂ) :
    idft s = scale (1 / (s.length : ℂ)) (phase_sums s) := by
  rw [idft, phase_sums, scale, List.map_map]
  apply List.map_congr_left
  intro n _
  simp only [Function.comp]
  ring

theorem ifft_eq_scale {m : ℕ} {s : List ℂ} (hs : s.length = 2 ^ m) :
    ifft s = some (scale (1 / (s.length : ℂ)) (phase_sums s)) := by
  rw [ifft_eq_idft hs, idft_eq_scale]

/-! ### The claims -/

/-- C1: for every signal of power-of-two length, the iterative transforms
agree with the direct reference: the residual between `dft(signal)` and
`fft(signal)` (the source's `prop_dft_equal_fft`) and the residual between
`idft(signal)` and `ifft(signal)` (`prop_idft_equal_ifft`) are both computed
and lie below `eps = 0.01`; in exact arithmetic both residuals are `0`. -/
theorem claim_C1_transforms_agree (m : ℕ) (s : List ℂ) (hs : s.length = 2 ^ m) :
    ∃ r1 r2 : ℝ, prop_dft_equal_fft s = some r1 ∧ r1 < eps
      ∧ prop_idft_equal_ifft s = some r2 ∧ r2 < eps := by
  refine ⟨0, 0, ?_, eps_pos, ?_, eps_pos⟩
  · rw [prop_dft_equal_fft, fft_eq_dft hs]
    simp only [Option.some_bind]
    exact error_self (dft s)
  · rw [prop_idft_equal_ifft, ifft_eq_idft hs]
    simp only [Option.some_bind]
    exact error_self (idft s)

/-- Witness for C1 at the concrete power-of-two signal `[1, 1]`. -/
theorem claim_C1_witness : ∃ r1 r2 : ℝ,
    prop_dft_equal_fft [1, 1] = some r1 ∧ r1 < eps
      ∧ prop_idft_equal_ifft [1, 1] = some r2 ∧ r2 < eps :=
  claim_C1_transforms_agree 1 [1, 1] (by norm_num)

/-- C2: in every forward butterfly stage of block size `S` (block `t` of
`fft_step`), the pair at local offset `p < S/2` is rewritten to
`a + W(p, S)·b` and `a + W(p + S/2, S)·b`: both outputs use the same twiddle
function `W` evaluated at the two in-block sample indices, exactly as
`fft_step_spectrum` writes them (not the textbook plus/minus form). -/
theorem claim_C2_butterfly_form (T S t p : ℕ) (y : List ℂ)
    (hy : y.length = T * S) (ht : t < T) (hp : p < S / 2) :
    (fft_step T S y).getD (t * S + p) 0
        = y.getD (t * S + p) 0 + W p S * y.getD (t * S + p + S / 2) 0
      ∧ (fft_step T S y).getD (t * S + p + S / 2) 0
        = y.getD (t * S + p) 0 + W (p + S / 2) S * y.getD (t * S + p + S / 2) 0 := by
  have hts : t * S + S ≤ T * S := by
    have h1 : t + 1 ≤ T := ht
    calc t * S + S = (t + 1) * S := by ring
      _ ≤ T * S := Nat.mul_le_mul_right S h1
  have hhalf : S / 2 + S / 2 ≤ S := by omega
  have hblock : ((y.drop (t * S)).take S).length = S := by
    rw [List.length_take, List.length_drop, hy]
    omega
  have hb1 : ((y.drop (t * S)).take S).getD p 0 = y.getD (t * S + p) 0 := by
    rw [getD_take 0 (by omega), getD_drop]
  have hb2 : ((y.drop (t * S)).take S).getD (p + S / 2) 0
      = y.getD (t * S + p + S / 2) 0 := by
    rw [getD_take 0 (by omega), getD_drop]
    congr 1
    omega
  constructor
  · rw [fft_step, blockwise_getD (fft_step_spectrum_length S) S t T y hy ht p (by omega)]
    rw [fft_step_spectrum_getD_lo hblock hp, hb1, hb2]
  · rw [show t * S + p + S / 2 = t * S + (p + S / 2) by omega]
    rw [fft_step, blockwise_getD (fft_step_spectrum_length S) S t T y hy ht (p + S / 2)
      (by omega)]
    rw [fft_step_spectrum_getD_hi hblock (by omega) (by omega)]
    rw [show p + S / 2 - S / 2 = p by omega, hb1, hb2]
    rw [show t * S + (p + S / 2) = t * S + p + S / 2 by omega]

/-- Witness for C2 at the single block `[1, 0]` with `S = 2`, `t = p = 0`. -/
theorem claim_C2_witness :
    (fft_step 1 2 [1, 0]).getD (0 * 2 + 0) 0
        = [(1 : ℂ), 0].getD (0 * 2 + 0) 0 + W 0 2 * [(1 : ℂ), 0].getD (0 * 2 + 0 + 2 / 2) 0
      ∧ (fft_step 1 2 [1, 0]).getD (0 * 2 + 0 + 2 / 2) 0
        = [(1 : ℂ), 0].getD (0 * 2 + 0) 0
            + W (0 + 2 / 2) 2 * [(1 : ℂ), 0].getD (0 * 2 + 0 + 2 / 2) 0 :=
  claim_C2_butterfly_form 1 2 0 0 [1, 0] (by norm_num) (by norm_num) (by norm_num)

/-- C3: for every signal of power-of-two length, both round trips recover the
input: the residuals computed by the source's `prop_inverse_fft`
(`signal` vs `ifft(fft(signal))`) and `prop_inverse_dft`
(`signal` vs `idft(dft(signal))`) exist and lie below `eps = 0.01`; in exact
arithmetic both are `0`. -/
theorem claim_C3_roundtrips (m : ℕ) (s : List ℂ) (hs : s.length = 2 ^ m) :
    ∃ r1 r2 : ℝ, prop_inverse_fft s = some r1 ∧ r1 < eps
      ∧ prop_inverse_dft s = some r2 ∧ r2 < eps := by
  have hd : (dft s).length = 2 ^ m := by rw [dft_length, hs]
  refine ⟨0, 0, ?_, eps_pos, ?_, eps_pos⟩
  · rw [prop_inverse_fft, fft_eq_dft hs]
    simp only [Option.some_bind]
    rw [ifft_eq_idft hd]
    simp only [Option.some_bind]
    rw [idft_dft]
    exact error_self s
  · rw [prop_inverse_dft, idft_dft]
    exact error_self s

/-- Witness for C3 at the concrete power-of-two signal `[1, 1]`. -/
theorem claim_C3_witness : ∃ r1 r2 : ℝ,
    prop_inverse_fft [1, 1] = some r1 ∧ r1 < eps
      ∧ prop_inverse_dft [1, 1] = some r2 ∧ r2 < eps :=
  claim_C3_roundtrips 1 [1, 1] (by norm_num)

/-- C4: for every signal of power-of-two length `N ≥ 2`, DFT-ing the even and
odd sub-sequences, concatenating, and applying one forward butterfly stage of
block size `S = N` yields `dft(signal)` within `eps` (the source's
`prop_fft_is_decomposed_dft`); in exact arithmetic the residual is `0`. -/
theorem claim_C4_decomposition (m : ℕ) (s : List ℂ) (hm : 1 ≤ m)
    (hs : s.length = 2 ^ m) :
    ∃ r : ℝ, prop_fft_is_decomposed_dft s = some r ∧ r < eps := by
  refine ⟨0, ?_, eps_pos⟩
  obtain ⟨m1, rfl⟩ : ∃ m1, m = m1 + 1 := ⟨m - 1, by omega⟩
  simp only [prop_fft_is_decomposed_dft]
  have hev : (evens s).length = 2 ^ m1 := by rw [evens_length, hs, pow_succ]; omega
  have hod : (odds s).length = 2 ^ m1 := by rw [odds_length, hs, pow_succ]; omega
  have hlen : (dft (evens s) ++ dft (odds s)).length = 2 * 2 ^ m1 := by
    rw [List.length_append, dft_length, dft_length, hev, hod]
    ring
  rw [hlen, ct_forward (2 ^ m1) (pow_pos (by norm_num) m1) s (by rw [hs, pow_succ]; ring)]
  exact error_self (dft s)

/-- Witness for C4 at the concrete length-2 signal `[1, 0]`. -/
theorem claim_C4_witness :
    ∃ r : ℝ, prop_fft_is_decomposed_dft [1, 0] = some r ∧ r < eps :=
  claim_C4_decomposition 1 [1, 0] (by norm_num) (by norm_num)

/-- C5: the inverse iterative transform permutes by bit-reversal and runs
ascending stages whose butterflies scale both outputs by `0.5` and use the
twiddle `Q` at the two sample indices (first conjunct, the per-pair form of
`ifft_step`); cumulatively the `log₂ N` halvings amount to division by `N`:
`ifft` equals the plain inverse phase sums scaled by `1/N`, the very factor
`idft` applies explicitly in each output term (second conjunct). -/
theorem claim_C5_inverse_structure :
    (∀ (S : ℕ) (y : List ℂ) (p : ℕ), y.length = S → p < S / 2 →
      (ifft_step S y).getD p 0
          = (1 / 2 : ℂ) * (y.getD p 0 + Q p S * y.getD (p + S / 2) 0)
        ∧ (ifft_step S y).getD (p + S / 2) 0
            = (1 / 2 : ℂ) * (y.getD p 0 + Q (p + S / 2) S * y.getD (p + S / 2) 0))
    ∧ (∀ (m : ℕ) (s : List ℂ), s.length = 2 ^ m →
        ifft s = some (scale (1 / (s.length : ℂ)) (phase_sums s))
          ∧ idft s = scale (1 / (s.length : ℂ)) (phase_sums s)) := by
  constructor
  · intro S y p hy hp
    constructor
    · exact ifft_step_getD_lo hy hp
    · have h2 := ifft_step_getD_hi hy (by omega : S / 2 ≤ p + S / 2)
        (by omega : p + S / 2 < S / 2 + S / 2)
      rwa [show p + S / 2 - S / 2 = p by omega] at h2
  · intro m s hs
    exact ⟨ifft_eq_scale hs, idft_eq_scale s⟩

/-- Witness for C5: the butterfly form at `S = 2`, `p = 0` on `[1, 0]`, and
the `1/N` scaling on the singleton signal. -/
theorem claim_C5_witness :
    (ifft_step 2 [1, 0]).getD 0 0
        = (1 / 2 : ℂ) * ([(1 : ℂ), 0].getD 0 0 + Q 0 2 * [(1 : ℂ), 0].getD (0 + 2 / 2) 0)
      ∧ ifft [(1 : ℂ)]
          = some (scale (1 / ((([(1 : ℂ)] : List ℂ).length : ℕ) : ℂ))
              (phase_sums [(1 : ℂ)])) :=
  ⟨(claim_C5_inverse_structure.1 2 [1, 0] 0 (by norm_num) (by norm_num)).1,
    (claim_C5_inverse_structure.2 0 [(1 : ℂ)] (by norm_num)).1⟩

theorem three_ne_two_pow (k : ℕ) : (3 : ℕ) ≠ 2 ^ k := by
  match k with
  | 0 => norm_num
  | 1 => norm_num
  | k + 2 =>
    have h4 : (2 : ℕ) ^ (k + 2) = 4 * 2 ^ k := by ring
    have h1 : (1 : ℕ) ≤ 2 ^ k := Nat.one_le_two_pow
    omega

/-- C6 counterexample: the empty signal's length `0` is not a power of two,
yet `fft` and `ifft` terminate normally and return the empty signal — no
assertion-style abort and no explicitly rejected result occurs there. -/
theorem claim_C6_counterexample :
    fft ([] : List ℂ) = some [] ∧ ifft ([] : List ℂ) = some [] :=
  ⟨fft_empty, ifft_empty⟩

/-- C6 (amended): for every signal of positive length that is not a power of
two, the bit-reversal loop inside `fft` and `ifft` never exits, so neither
transform produces any result (modelled as `none`) — a non-termination rather
than an assert or an explicit rejection; the empty signal is returned
unchanged; and whenever either transform does return a signal, its length
equals the input's, so no input is ever silently truncated or padded. -/
theorem claim_C6_non_pow2_behaviour :
    (∀ s : List ℂ, 0 < s.length → (∀ k, s.length ≠ 2 ^ k) →
      fft s = none ∧ ifft s = none)
    ∧ (∀ s r : List ℂ, fft s = some r → r.length = s.length)
    ∧ (∀ s r : List ℂ, ifft s = some r → r.length = s.length) :=
  ⟨fun _ h1 h2 => ⟨fft_none h1 h2, ifft_none h1 h2⟩,
    fun _ _ hr => fft_length_some hr,
    fun _ _ hr => ifft_length_some hr⟩

/-- Witness for C6 (amended) at the concrete length-3 signal `[1, 0, 0]` and,
for the length-preservation parts, at the empty signal. -/
theorem claim_C6_witness :
    (fft [(1 : ℂ), 0, 0] = none ∧ ifft [(1 : ℂ), 0, 0] = none)
      ∧ ([] : List ℂ).length = ([] : List ℂ).length
      ∧ ([] : List ℂ).length = ([] : List ℂ).length :=
  ⟨claim_C6_non_pow2_behaviour.1 [(1 : ℂ), 0, 0] (by norm_num)
      (fun k => by simpa using three_ne_two_pow k),
    claim_C6_non_pow2_behaviour.2.1 [] [] fft_empty,
    claim_C6_non_pow2_behaviour.2.2 [] [] ifft_empty⟩

/-- C7: `reverse_bits` satisfies the literal test triples of the source
exactly, as natural-number equalities with no tolerance: `0xAA` under bound
`0x100` reverses to `0x55`, and the palindrome `0xA5` to itself. -/
theorem claim_C7_reverse_bits_literals :
    prop_reverse_bits 0xAA 0x100 0x55 = true ∧ prop_reverse_bits 0xA5 0x100 0xA5 = true
      ∧ reverse_bits 0xAA 0x100 = some 0x55 ∧ reverse_bits 0xA5 0x100 = some 0xA5 := by
  decide

/-- C8: on equal-length signals, `error` returns exactly
`sqrt(Re(Σ (aᵢ-bᵢ)·conj(aᵢ-bᵢ)) / N)` over the common length `N`, and on a
length mismatch it fails (the `assert` in `operator-`, modelled as `none`). -/
theorem claim_C8_residual_formula (a b : List ℂ) :
    (a.length = b.length → error a b = some (Real.sqrt
      ((∑ i ∈ Finset.range a.length,
        (a.getD i 0 - b.getD i 0) * (starRingEnd ℂ) (a.getD i 0 - b.getD i 0)).re
        / a.length)))
    ∧ (a.length ≠ b.length → error a b = none) := by
  constructor
  · intro h
    rw [error_eq h]
    rfl
  · exact error_none

/-- Witness for C8: the formula at `[1]` vs `[0]`, and the rejection at the
mismatched pair `[1]` vs `[]`. -/
theorem claim_C8_witness :
    error [(1 : ℂ)] [(0 : ℂ)] = some (Real.sqrt
      ((∑ i ∈ Finset.range ([(1 : ℂ)] : List ℂ).length,
        (([(1 : ℂ)] : List ℂ).getD i 0 - ([(0 : ℂ)] : List ℂ).getD i 0)
          * (starRingEnd ℂ)
            (([(1 : ℂ)] : List ℂ).getD i 0 - ([(0 : ℂ)] : List ℂ).getD i 0)).re
        / ([(1 : ℂ)] : List ℂ).length))
    ∧ error [(1 : ℂ)] [] = none :=
  ⟨(claim_C8_residual_formula [(1 : ℂ)] [(0 : ℂ)]).1 rfl,
    (claim_C8_residual_formula [(1 : ℂ)] []).2 (by norm_num)⟩

/-- C9: `Fourier::fft` performs, in order: one upload of the input into X,
one `fft_init` dispatch from X into Y1, then exactly `log₂ N = m` `fft_step`
dispatches with `B = 1, 2, 4, …, N/2` ascending (`B = 2^i` at stage `i`),
stage `i` reading the previous stage's output buffer `pingpong i` and
writing the other buffer `pingpong (i+1)` of the pair {Y1, Y2}, and finally
one download from the buffer the last stage wrote. -/
theorem claim_C9_dispatch_protocol (m : ℕ) :
    Fourier.fft m
      = Fourier.Ev.load Fourier.Buf.X
        :: Fourier.Ev.initDispatch Fourier.Buf.X m Fourier.Buf.Y1
        :: (((List.range m).map fun i =>
              Fourier.Ev.stepDispatch (Fourier.pingpong i) (2 ^ i)
                (Fourier.pingpong (i + 1)))
            ++ [Fourier.Ev.store (Fourier.pingpong m)])
      ∧ ∀ i, Fourier.pingpong (i + 1) ≠ Fourier.pingpong i := by
  constructor
  · rw [Fourier.fft]
    have h := Fourier.fft_dispatch_loop_pow m 0 Fourier.Buf.Y1 Fourier.Buf.Y2
    norm_num at h
    rw [h]
    rfl
  · intro i
    by_cases h : i % 2 = 0
    · have h1 : (i + 1) % 2 = 1 := by omega
      simp [Fourier.pingpong, h, h1]
    · have h1 : (i + 1) % 2 = 0 := by omega
      simp [Fourier.pingpong, h, h1]

/-- C10: on a signal of length `1 = 2^0`, the bit-reversal of the single
index `0` is `0` and no butterfly stage runs, so both `fft` and `ifft`
return the singleton unchanged. -/
theorem claim_C10_singleton_identity (x : ℂ) :
    fft [x] = some [x] ∧ ifft [x] = some [x] ∧ reverse_bits 0 1 = some 0 := by
  refine ⟨?_, ?_, by decide⟩
  · rw [fft_eq_dft (show ([x] : List ℂ).length = 2 ^ 0 by norm_num), dft_singleton]
  · rw [ifft_eq_idft (show ([x] : List ℂ).length = 2 ^ 0 by norm_num), idft_singleton]
